import Mathlib

/-!
Shallow embedding of `src/SmartLists/Configuration/split-config.js.py`, a
Python script that scans a JavaScript source file for single-line function
declarations, classifies each found function into one of ten categories by
keyword containment on the lowercased name, and prints a grouped report.

Text is modelled as `List Char`.  The regular expression
`^\s*(async\s+)?function\s+([a-zA-Z_][a-zA-Z0-9_]*)\s*\([^)]*\)\s*\{`
used with `re.match` (anchored prefix match) is embedded as a deterministic
recursive matcher: every greedy sub-pattern in it is followed by a token that
cannot extend the greedy run, so greedy matching without backtracking is
exactly the regex's semantics.  Whitespace is the ASCII `\s` set.  File
reading and process exit are modelled explicitly (a file system is a partial
map from paths to contents; the report is the list of printed strings).
-/

/-- ASCII whitespace, the characters matched by `\s` of the pattern. -/
def isWs (c : Char) : Bool :=
  c = ' ' || c = '\t' || c = '\n' || c = '\r' || c = '\x0b' || c = '\x0c'

/-- Identifier start class `[a-zA-Z_]` of the pattern. -/
def isIdentStart (c : Char) : Bool :=
  ('a' ≤ c && c ≤ 'z') || ('A' ≤ c && c ≤ 'Z') || c = '_'

/-- Identifier continuation class `[a-zA-Z0-9_]` of the pattern. -/
def isIdentChar (c : Char) : Bool :=
  isIdentStart c || ('0' ≤ c && c ≤ '9')

/-- Consume `\s*`: drop the maximal run of leading whitespace. -/
def dropWs : List Char → List Char
  | [] => []
  | c :: t => if isWs c then dropWs t else c :: t

/-- Consume a literal string; `none` when the input does not start with it. -/
def expectStr : List Char → List Char → Option (List Char)
  | [], l => some l
  | _ :: _, [] => none
  | p :: ps, c :: cs => if c = p then expectStr ps cs else none

/-- Consume `\s+`: at least one whitespace character, then the maximal run. -/
def dropWs1 (l : List Char) : Option (List Char) :=
  match l with
  | [] => none
  | c :: t => if isWs c then some (dropWs t) else none

/-- Consume `[a-zA-Z_][a-zA-Z0-9_]*` and return (identifier, rest). -/
def takeIdent (l : List Char) : Option (List Char × List Char) :=
  match l with
  | [] => none
  | c :: t =>
    if isIdentStart c then some (c :: t.takeWhile isIdentChar, t.dropWhile isIdentChar)
    else none

/-- Consume `[^)]*\)`: scan to the first close parenthesis and step past it. -/
def skipParams : List Char → Option (List Char)
  | [] => none
  | c :: t => if c = ')' then some t else skipParams t

/-- The optional group `(async\s+)?` of the pattern: returns whether the
group matched (group 1 nonempty) and the remaining input.  When `async` or
the following mandatory whitespace is absent the group matches empty. -/
def matchAsyncStep (l0 : List Char) : Bool × List Char :=
  match expectStr (String.toList "async") l0 with
  | some r =>
    match dropWs1 r with
    | some r2 => (true, r2)
    | none => (false, l0)
  | none => (false, l0)

/-- The part of the pattern after the optional group:
`function\s+([a-zA-Z_][a-zA-Z0-9_]*)\s*\([^)]*\)\s*\{`. -/
def matchFromFunction (isAsync : Bool) (l1 : List Char) : Option (Bool × List Char) :=
  match expectStr (String.toList "function") l1 with
  | none => none
  | some l2 =>
    match dropWs1 l2 with
    | none => none
    | some l3 =>
      match takeIdent l3 with
      | none => none
      | some (funcName, l4) =>
        match dropWs l4 with
        | '(' :: l6 =>
          match skipParams l6 with
          | none => none
          | some l7 =>
            match dropWs l7 with
            | '\x7b' :: _ => some (isAsync, funcName)
            | _ => none
        | _ => none

/-- Embedding of `re.match(function_pattern, line)` (source line 16/21):
pattern `^\s*(async\s+)?function\s+([a-zA-Z_][a-zA-Z0-9_]*)\s*\([^)]*\)\s*\{`.
Returns the captured groups on success: the asynchronous flag (group 1
nonempty) and the function name (group 2).  `re.match` only anchors the
start, so anything may follow the opening brace.  Greedy matching without
backtracking is faithful here: each greedy sub-pattern is followed by a
token its character class excludes, and a failed optional `async` group can
never be rescued by re-reading the same characters as `function`. -/
def re_match_function (line : List Char) : Option (Bool × List Char) :=
  matchFromFunction (matchAsyncStep (dropWs line)).1 (matchAsyncStep (dropWs line)).2

/-- Python `str.strip()`: remove leading and trailing whitespace. -/
def pyStrip (l : List Char) : List Char :=
  ((l.dropWhile isWs).reverse.dropWhile isWs).reverse

/-- One record per matched declaration (source lines 25-30). -/
structure FunctionRecord where
  name : List Char
  line : Nat
  async : Bool
  line_content : List Char
deriving DecidableEq, Repr

/-- Python `content.split('\n')` (source line 19): split on every newline;
the empty text yields one empty line. -/
def splitLines : List Char → List (List Char)
  | [] => [[]]
  | c :: t =>
    if c = '\n' then [] :: splitLines t
    else
      match splitLines t with
      | [] => [[c]]
      | h :: r => (c :: h) :: r

/-- The extraction loop (source lines 20-30): `enumerate(lines, 1)` with a
record appended for each matching line. -/
def extractLoop : List (List Char) → Nat → List FunctionRecord
  | [], _ => []
  | line :: rest, i =>
    match re_match_function line with
    | some (isAsync, funcName) =>
      ⟨funcName, i, isAsync, pyStrip line⟩ :: extractLoop rest (i + 1)
    | none => extractLoop rest (i + 1)

/-- The ten category labels, in the dict's declaration order (lines 33-44). -/
inductive Cat where
  | core | formatters | schedules | sorts | rules | playlists
  | filters | bulk_actions | api | init
deriving DecidableEq, Repr

/-- String containment, Python's `x in name` for strings. -/
def containsStr (pat text : List Char) : Bool :=
  pat.isPrefixOf text ||
    match text with
    | [] => false
    | _ :: t => containsStr pat t

/-- Python `str.lower()`; names matched by the pattern are ASCII. -/
def pyLower (l : List Char) : List Char := l.map Char.toLower

/-- The classification chain (source lines 46-69): lowercase the name, then
the `if`/`elif` cascade; the label of the first matching branch, `core` as
the unconditional `else`. -/
def classify (funcName : List Char) : Cat :=
  let n := pyLower funcName
  if [String.toList "format", String.toList "generate", String.toList "escape",
      String.toList "convert"].any (fun x => containsStr x n) then .formatters
  else if containsStr (String.toList "schedule") n then .schedules
  else if containsStr (String.toList "sort") n then .sorts
  else if [String.toList "rule", String.toList "field", String.toList "operator",
      String.toList "value", String.toList "input"].any (fun x => containsStr x n) then .rules
  else if [String.toList "playlist", String.toList "create", String.toList "edit",
      String.toList "clone", String.toList "delete", String.toList "refresh",
      String.toList "enable", String.toList "disable"].any (fun x => containsStr x n) then
    .playlists
  else if [String.toList "filter", String.toList "search",
      String.toList "apply"].any (fun x => containsStr x n) then .filters
  else if containsStr (String.toList "bulk") n then .bulk_actions
  else if [String.toList "api", String.toList "load", String.toList "get",
      String.toList "post", String.toList "put",
      String.toList "fetch"].any (fun x => containsStr x n) then .api
  else if [String.toList "init", String.toList "setup",
      String.toList "event"].any (fun x => containsStr x n) then .init
  else .core

/-- The `categories` dict (source lines 33-44): ten insertion-ordered lists. -/
structure Categories where
  core : List FunctionRecord
  formatters : List FunctionRecord
  schedules : List FunctionRecord
  sorts : List FunctionRecord
  rules : List FunctionRecord
  playlists : List FunctionRecord
  filters : List FunctionRecord
  bulk_actions : List FunctionRecord
  api : List FunctionRecord
  init : List FunctionRecord
deriving DecidableEq, Repr

/-- The dict with ten empty lists (source lines 33-44). -/
def emptyCategories : Categories := ⟨[], [], [], [], [], [], [], [], [], []⟩

/-- Look a bucket up by label. -/
def getBucket (cats : Categories) : Cat → List FunctionRecord
  | .core => cats.core
  | .formatters => cats.formatters
  | .schedules => cats.schedules
  | .sorts => cats.sorts
  | .rules => cats.rules
  | .playlists => cats.playlists
  | .filters => cats.filters
  | .bulk_actions => cats.bulk_actions
  | .api => cats.api
  | .init => cats.init

/-- `categories[label].append(func)` for the branch `classify` selected. -/
def appendToCat (cats : Categories) (c : Cat) (f : FunctionRecord) : Categories :=
  match c with
  | .core => { cats with core := cats.core ++ [f] }
  | .formatters => { cats with formatters := cats.formatters ++ [f] }
  | .schedules => { cats with schedules := cats.schedules ++ [f] }
  | .sorts => { cats with sorts := cats.sorts ++ [f] }
  | .rules => { cats with rules := cats.rules ++ [f] }
  | .playlists => { cats with playlists := cats.playlists ++ [f] }
  | .filters => { cats with filters := cats.filters ++ [f] }
  | .bulk_actions => { cats with bulk_actions := cats.bulk_actions ++ [f] }
  | .api => { cats with api := cats.api ++ [f] }
  | .init => { cats with init := cats.init ++ [f] }

/-- The categorization loop (source lines 46-69). -/
def categorizeAll (funcs : List FunctionRecord) : Categories :=
  funcs.foldl (fun cats f => appendToCat cats (classify f.name) f) emptyCategories

/-- Embedding of `analyze_file` (source lines 10-71) after the file has been
read: extract the functions line by line, then categorize them.  The file
read itself is modelled in `runMain`. -/
def analyze_file (content : List Char) : Categories × List FunctionRecord :=
  let functions := extractLoop (splitLines content) 1
  (categorizeAll functions, functions)

/-- The ten labels in the dict's fixed iteration order (`categories.items()`). -/
def catOrder : List Cat :=
  [.core, .formatters, .schedules, .sorts, .rules, .playlists,
   .filters, .bulk_actions, .api, .init]

/-- The dict key for a label, as spelled in the source. -/
def catLabel : Cat → String
  | .core => "core"
  | .formatters => "formatters"
  | .schedules => "schedules"
  | .sorts => "sorts"
  | .rules => "rules"
  | .playlists => "playlists"
  | .filters => "filters"
  | .bulk_actions => "bulk_actions"
  | .api => "api"
  | .init => "init"

/-- Python `str.upper()` on the ASCII category labels. -/
def pyUpper (s : String) : String := String.mk (s.data.map Char.toUpper)

/-- One printed line per function (source lines 84-85). -/
def funcReportLine (f : FunctionRecord) : String :=
  "  " ++ (if f.async then "async " else "") ++ String.mk f.name
    ++ " (line " ++ toString f.line ++ ")"

/-- The `for category, funcs in categories.items()` loop (source lines
80-85), iterated over the given labels: each non-empty bucket prints the
uppercased header with its count and one line per function; an empty bucket
prints nothing (line 81 guard). -/
def reportSections (cats : Categories) : List Cat → List String
  | [] => []
  | c :: r =>
    (if (getBucket cats c).isEmpty then []
     else ("\n" ++ pyUpper (catLabel c) ++ " (" ++ toString (getBucket cats c).length
           ++ " functions):") :: (getBucket cats c).map funcReportLine)
    ++ reportSections cats r

/-- Embedding of `print_analysis` (source lines 73-85): the list of strings
passed to `print`, in order. -/
def print_analysis (cats : Categories) (functions : List FunctionRecord) : List String :=
  [String.mk (List.replicate 80 '='), "FUNCTION ANALYSIS", String.mk (List.replicate 80 '='),
   "\nTotal functions found: " ++ toString functions.length ++ "\n"]
  ++ reportSections cats catOrder

/-- The `__main__` filepath choice (source lines 88-90): `config.js` unless
`sys.argv` has a second element. -/
def chosenPath (argv : List String) : String :=
  if h : 1 < argv.length then argv.get ⟨1, h⟩ else "config.js"

/-- A file system: a path maps to its decoded text, or to `none` when the
file is missing, unreadable, or not decodable as UTF-8 text. -/
def FileSystem : Type := String → Option (List Char)

/-- Read, analyze and print a given path (source lines 92-93, with the
`open` of line 12): an unreadable or undecodable file raises before anything
is printed, modelled as `Except.error` carrying the error description;
success carries the full printed report. -/
def runWithPath (filepath : String) (fs : FileSystem) : Except String (List String) :=
  match fs filepath with
  | none => .error ("cannot open or decode file: " ++ filepath)
  | some content =>
    let r := analyze_file content
    .ok (print_analysis r.1 r.2)

/-- Embedding of the `__main__` block (source lines 87-93): pick the path
from the arguments, then read, analyze and print. -/
def runMain (argv : List String) (fs : FileSystem) : Except String (List String) :=
  runWithPath (chosenPath argv) fs

/-- The process exit status for a run (an uncaught Python exception exits
with status 1; normal completion exits with 0). -/
def exitStatus : Except String (List String) → Nat
  | .error _ => 1
  | .ok _ => 0

/-- Modelled from the spec's Classifier algorithm: the ten ordered rules as
data, each a keyword set with its label, in the spec's priority order 1-9
(rule 10, `core`, is the fallback of `firstMatchCat`). -/
def specRules : List (List (List Char) × Cat) :=
  [([String.toList "format", String.toList "generate", String.toList "escape",
     String.toList "convert"], .formatters),
   ([String.toList "schedule"], .schedules),
   ([String.toList "sort"], .sorts),
   ([String.toList "rule", String.toList "field", String.toList "operator",
     String.toList "value", String.toList "input"], .rules),
   ([String.toList "playlist", String.toList "create", String.toList "edit",
     String.toList "clone", String.toList "delete", String.toList "refresh",
     String.toList "enable", String.toList "disable"], .playlists),
   ([String.toList "filter", String.toList "search", String.toList "apply"], .filters),
   ([String.toList "bulk"], .bulk_actions),
   ([String.toList "api", String.toList "load", String.toList "get",
     String.toList "post", String.toList "put", String.toList "fetch"], .api),
   ([String.toList "init", String.toList "setup", String.toList "event"], .init)]

/-- Modelled from the spec: first-match-wins evaluation of an ordered rule
list — return the label of the first rule with a keyword contained in the
name, never evaluating later rules; `core` when no rule matches. -/
def firstMatchCat (n : List Char) : List (List (List Char) × Cat) → Cat
  | [] => .core
  | (kws, c) :: rest => if kws.any (fun k => containsStr k n) then c else firstMatchCat n rest

/-- Modelled from the spec's Classifier contract: lowercase the name, then
evaluate the ordered rules first-match-wins. -/
def specClassify (funcName : List Char) : Cat :=
  firstMatchCat (pyLower funcName) specRules

/-- Modelled from the spec's Reporter contract: a banner, a total count
line, then for each non-empty bucket, iterated in the fixed category order,
an uppercased category header with its count followed by one line per
function; empty buckets are omitted entirely, header included. -/
def reporterSpec (cats : Categories) (total : Nat) : List String :=
  [String.mk (List.replicate 80 '='), "FUNCTION ANALYSIS", String.mk (List.replicate 80 '='),
   "\nTotal functions found: " ++ toString total ++ "\n"]
  ++ catOrder.flatMap (fun c =>
      if getBucket cats c = [] then []
      else ("\n" ++ pyUpper (catLabel c) ++ " (" ++ toString (getBucket cats c).length
            ++ " functions):") :: (getBucket cats c).map funcReportLine)


theorem ws_char_cases (c : Char) (h : isWs c = true) :
    c = ' ' ∨ c = '\t' ∨ c = '\n' ∨ c = '\r' ∨ c = '\x0b' ∨ c = '\x0c' := by
  simp [isWs] at h
  tauto

theorem not_ws_of_identStart (c : Char) (h : isIdentStart c = true) : isWs c = false := by
  cases hw : isWs c with
  | false => rfl
  | true =>
    exfalso
    rcases ws_char_cases c hw with rfl | rfl | rfl | rfl | rfl | rfl <;>
      exact absurd h (by decide)

theorem not_identChar_of_ws (c : Char) (h : isWs c = true) : isIdentChar c = false := by
  rcases ws_char_cases c h with rfl | rfl | rfl | rfl | rfl | rfl <;> decide

theorem ne_paren_of_ws (c : Char) (h : isWs c = true) : c ≠ '(' ∧ c ≠ ')' := by
  rcases ws_char_cases c h with rfl | rfl | rfl | rfl | rfl | rfl <;> exact ⟨by decide, by decide⟩

theorem ne_paren_of_identChar (c : Char) (h : isIdentChar c = true) : c ≠ '(' ∧ c ≠ ')' := by
  constructor <;> rintro rfl <;> exact absurd h (by decide)

theorem identChar_of_identStart (c : Char) (h : isIdentStart c = true) : isIdentChar c = true := by
  simp [isIdentChar, h]

theorem dropWs_ws_append (w l : List Char) (hw : ∀ c ∈ w, isWs c = true) :
    dropWs (w ++ l) = dropWs l := by
  induction w with
  | nil => rfl
  | cons c t ih =>
    have hc : isWs c = true := hw c (List.mem_cons_self c t)
    simp only [List.cons_append, dropWs, hc, if_true]
    exact ih (fun d hd => hw d (List.mem_cons_of_mem c hd))

theorem dropWs_cons_not_ws (c : Char) (t : List Char) (h : isWs c = false) :
    dropWs (c :: t) = c :: t := by
  simp [dropWs, h]

theorem dropWs_spec (l : List Char) :
    ∃ w, l = w ++ dropWs l ∧ ∀ c ∈ w, isWs c = true := by
  induction l with
  | nil => exact ⟨[], rfl, by simp⟩
  | cons c t ih =>
    cases hc : isWs c with
    | true =>
      obtain ⟨w, hw, hws⟩ := ih
      refine ⟨c :: w, ?_, ?_⟩
      · simp only [dropWs, hc, if_true, List.cons_append]
        exact congrArg (c :: ·) hw
      · intro d hd
        rcases List.mem_cons.mp hd with rfl | hd
        · exact hc
        · exact hws d hd
    | false =>
      exact ⟨[], by simp [dropWs, hc], by simp⟩

theorem expectStr_append (p l : List Char) : expectStr p (p ++ l) = some l := by
  induction p with
  | nil => rfl
  | cons c t ih => simp [expectStr, ih]

theorem expectStr_sound (p l r : List Char) (h : expectStr p l = some r) : l = p ++ r := by
  induction p generalizing l with
  | nil => simpa using Option.some_inj.mp h
  | cons c t ih =>
    cases l with
    | nil => exact absurd h (by simp [expectStr])
    | cons d u =>
      by_cases hd : d = c
      · subst hd
        simp only [expectStr, if_pos rfl] at h
        simpa using ih u h
      · simp [expectStr, hd] at h

theorem expectStr_none_of_ne (p : Char) (ps : List Char) (c : Char) (cs : List Char)
    (h : c ≠ p) : expectStr (p :: ps) (c :: cs) = none := by
  simp [expectStr, h]

theorem dropWs1_cons_ws (c : Char) (t : List Char) (h : isWs c = true) :
    dropWs1 (c :: t) = some (dropWs t) := by
  simp [dropWs1, h]

theorem dropWs1_sound (l r : List Char) (h : dropWs1 l = some r) :
    ∃ w, l = w ++ r ∧ w ≠ [] ∧ ∀ c ∈ w, isWs c = true := by
  cases l with
  | nil => exact absurd h (by simp [dropWs1])
  | cons c t =>
    cases hc : isWs c with
    | false => simp [dropWs1, hc] at h
    | true =>
      simp only [dropWs1, hc, if_true, Option.some.injEq] at h
      obtain ⟨w, hw, hws⟩ := dropWs_spec t
      rw [h] at hw
      refine ⟨c :: w, by simp [hw], by simp, ?_⟩
      intro d hd
      rcases List.mem_cons.mp hd with rfl | hd
      · exact hc
      · exact hws d hd

theorem skipParams_append (ps l : List Char) (h : ')' ∉ ps) :
    skipParams (ps ++ ')' :: l) = some l := by
  induction ps with
  | nil => simp [skipParams]
  | cons c t ih =>
    have hc : c ≠ ')' := fun hc => h (by simp [hc])
    simp only [List.cons_append, skipParams, hc, if_false]
    exact ih (fun hm => h (List.mem_cons_of_mem c hm))

theorem skipParams_sound (l r : List Char) (h : skipParams l = some r) :
    ∃ ps, l = ps ++ ')' :: r ∧ ')' ∉ ps := by
  induction l generalizing r with
  | nil => exact absurd h (by simp [skipParams])
  | cons c t ih =>
    by_cases hc : c = ')'
    · subst hc
      simp [skipParams] at h
      exact ⟨[], by simp [h], by simp⟩
    · simp only [skipParams, hc, if_false] at h
      obtain ⟨ps, hps, hmem⟩ := ih r h
      refine ⟨c :: ps, by simp [hps], ?_⟩
      intro hm
      rcases List.mem_cons.mp hm with hh | hh
      · exact hc hh.symm
      · exact hmem hh

theorem takeWhile_append_cons (p : Char → Bool) (xs : List Char) (r : Char) (t : List Char)
    (hxs : ∀ x ∈ xs, p x = true) (hr : p r = false) :
    (xs ++ r :: t).takeWhile p = xs := by
  induction xs with
  | nil => simp [List.takeWhile, hr]
  | cons x u ih =>
    have hx : p x = true := hxs x (List.mem_cons_self x u)
    simp only [List.cons_append, List.takeWhile, hx]
    exact congrArg (x :: ·) (ih (fun y hy => hxs y (List.mem_cons_of_mem x hy)))

theorem dropWhile_append_cons (p : Char → Bool) (xs : List Char) (r : Char) (t : List Char)
    (hxs : ∀ x ∈ xs, p x = true) (hr : p r = false) :
    (xs ++ r :: t).dropWhile p = r :: t := by
  induction xs with
  | nil => simp [List.dropWhile, hr]
  | cons x u ih =>
    have hx : p x = true := hxs x (List.mem_cons_self x u)
    simp only [List.cons_append, List.dropWhile, hx]
    exact ih (fun y hy => hxs y (List.mem_cons_of_mem x hy))

theorem takeIdent_append (c : Char) (cs : List Char) (r : Char) (t : List Char)
    (hc : isIdentStart c = true) (hcs : ∀ d ∈ cs, isIdentChar d = true)
    (hr : isIdentChar r = false) :
    takeIdent (c :: (cs ++ r :: t)) = some (c :: cs, r :: t) := by
  simp only [takeIdent, hc, if_true]
  rw [takeWhile_append_cons isIdentChar cs r t hcs hr,
      dropWhile_append_cons isIdentChar cs r t hcs hr]

theorem takeIdent_sound (l nm r : List Char) (h : takeIdent l = some (nm, r)) :
    l = nm ++ r ∧ ∃ c cs, nm = c :: cs ∧ isIdentStart c = true ∧
      ∀ d ∈ cs, isIdentChar d = true := by
  cases l with
  | nil => exact absurd h (by simp [takeIdent])
  | cons c t =>
    cases hc : isIdentStart c with
    | false => simp [takeIdent, hc] at h
    | true =>
      simp only [takeIdent, hc, if_true, Option.some.injEq, Prod.mk.injEq] at h
      obtain ⟨hnm, hr⟩ := h
      constructor
      · rw [← hnm, ← hr]
        simp [List.takeWhile_append_dropWhile]
      · refine ⟨c, t.takeWhile isIdentChar, hnm.symm, hc, ?_⟩
        intro d hd
        exact List.mem_takeWhile_imp hd

theorem expectStr_async_function (X : List Char) :
    expectStr (String.toList "async") (String.toList "function" ++ X) = none := rfl

theorem expectStr_async_self (X : List Char) :
    expectStr (String.toList "async") (String.toList "async" ++ X) = some X := rfl

theorem expectStr_function_self (X : List Char) :
    expectStr (String.toList "function") (String.toList "function" ++ X) = some X := rfl

theorem dropWs_function_append (X : List Char) :
    dropWs (String.toList "function" ++ X) = String.toList "function" ++ X := rfl

theorem matchAsyncStep_function (X : List Char) :
    matchAsyncStep (String.toList "function" ++ X)
      = (false, String.toList "function" ++ X) := rfl

theorem dropWs_async_append (X : List Char) :
    dropWs (String.toList "async" ++ X) = String.toList "async" ++ X := rfl

theorem matchAsyncStep_async (a : Char) (wt X : List Char) (ha : isWs a = true) :
    matchAsyncStep (String.toList "async" ++ (a :: (wt ++ X))) = (true, dropWs (wt ++ X)) := by
  simp only [matchAsyncStep, expectStr_async_self, dropWs1_cons_ws _ _ ha]

theorem matchFromFunction_complete (isAsync : Bool) (b : Char) (bt : List Char)
    (c : Char) (cs w2 ps w3 rest : List Char)
    (hb : isWs b = true) (hbt : ∀ d ∈ bt, isWs d = true)
    (hc : isIdentStart c = true) (hcs : ∀ d ∈ cs, isIdentChar d = true)
    (hw2 : ∀ d ∈ w2, isWs d = true) (hps : ')' ∉ ps) (hw3 : ∀ d ∈ w3, isWs d = true) :
    matchFromFunction isAsync (String.toList "function" ++
      (b :: (bt ++ (c :: (cs ++ (w2 ++ ('(' :: (ps ++ (')' :: (w3 ++ ('\x7b' :: rest)))))))))))
      = some (isAsync, c :: cs) := by
  have htail : ∃ r t, w2 ++ ('(' :: (ps ++ (')' :: (w3 ++ ('\x7b' :: rest))))) = r :: t ∧
      isIdentChar r = false := by
    cases w2 with
    | nil => exact ⟨'(', ps ++ (')' :: (w3 ++ ('\x7b' :: rest))), rfl, by decide⟩
    | cons d dt =>
      exact ⟨d, dt ++ ('(' :: (ps ++ (')' :: (w3 ++ ('\x7b' :: rest))))), rfl,
        not_identChar_of_ws d (hw2 d (List.mem_cons_self d dt))⟩
  obtain ⟨r, t, hrt, hrid⟩ := htail
  simp only [matchFromFunction, expectStr_function_self, dropWs1_cons_ws _ _ hb]
  rw [dropWs_ws_append bt _ hbt,
    dropWs_cons_not_ws _ _ (not_ws_of_identStart c hc), hrt]
  simp only [takeIdent_append c cs r t hc hcs hrid]
  rw [← hrt, dropWs_ws_append w2 _ hw2]
  simp only [dropWs_cons_not_ws '(' _ (by decide), skipParams_append _ _ hps]
  rw [dropWs_ws_append w3 _ hw3, dropWs_cons_not_ws _ _ (by decide)]
  rfl

theorem re_match_function_complete
    (w0 apart w1 nm w2 ps w3 rest : List Char) (isAsync : Bool)
    (hw0 : ∀ c ∈ w0, isWs c = true)
    (hap : (isAsync = false ∧ apart = []) ∨
           (isAsync = true ∧ ∃ wa, (∀ c ∈ wa, isWs c = true) ∧ wa ≠ [] ∧
             apart = String.toList "async" ++ wa))
    (hw1 : ∀ c ∈ w1, isWs c = true) (hw1ne : w1 ≠ [])
    (hnm : ∃ c cs, nm = c :: cs ∧ isIdentStart c = true ∧ ∀ d ∈ cs, isIdentChar d = true)
    (hw2 : ∀ c ∈ w2, isWs c = true) (hps : ')' ∉ ps) (hw3 : ∀ c ∈ w3, isWs c = true) :
    re_match_function (w0 ++ apart ++ String.toList "function" ++ w1 ++ nm ++ w2 ++
      '(' :: ps ++ ')' :: w3 ++ '\x7b' :: rest) = some (isAsync, nm) := by
  obtain ⟨c, cs, rfl, hc, hcs⟩ := hnm
  cases w1 with
  | nil => exact absurd rfl hw1ne
  | cons b bt =>
    have hb : isWs b = true := hw1 b (List.mem_cons_self b bt)
    have hbt : ∀ d ∈ bt, isWs d = true := fun d hd => hw1 d (List.mem_cons_of_mem b hd)
    rcases hap with ⟨rfl, rfl⟩ | ⟨rfl, wa, hwa, hwane, rfl⟩
    · simp only [re_match_function, List.nil_append, List.append_assoc, List.cons_append]
      rw [dropWs_ws_append w0 _ hw0, dropWs_function_append, matchAsyncStep_function]
      exact matchFromFunction_complete false b bt c cs w2 ps w3 rest hb hbt hc hcs hw2 hps hw3
    · cases wa with
      | nil => exact absurd rfl hwane
      | cons a wt =>
        have ha : isWs a = true := hwa a (List.mem_cons_self a wt)
        have hwt : ∀ d ∈ wt, isWs d = true := fun d hd => hwa d (List.mem_cons_of_mem a hd)
        simp only [re_match_function, List.append_assoc, List.cons_append]
        rw [dropWs_ws_append w0 _ hw0, dropWs_async_append, matchAsyncStep_async a wt _ ha,
          dropWs_ws_append wt _ hwt, dropWs_function_append]
        exact matchFromFunction_complete true b bt c cs w2 ps w3 rest hb hbt hc hcs hw2 hps hw3


theorem matchAsyncStep_sound (l0 : List Char) (b : Bool) (l1 : List Char)
    (h : matchAsyncStep l0 = (b, l1)) :
    (b = false ∧ l1 = l0) ∨
    (b = true ∧ ∃ wa, (∀ c ∈ wa, isWs c = true) ∧ wa ≠ [] ∧
      l0 = String.toList "async" ++ (wa ++ l1)) := by
  unfold matchAsyncStep at h
  split at h
  · rename_i r he
    split at h
    · rename_i r2 hd
      injection h with h1 h2
      subst h1
      subst h2
      obtain ⟨w, hw, hne, hws⟩ := dropWs1_sound r r2 hd
      refine Or.inr ⟨rfl, w, hws, hne, ?_⟩
      rw [expectStr_sound _ _ _ he, hw]
    · injection h with h1 h2
      subst h1
      subst h2
      exact Or.inl ⟨rfl, rfl⟩
  · injection h with h1 h2
    subst h1
    subst h2
    exact Or.inl ⟨rfl, rfl⟩

theorem matchFromFunction_sound (isAsync : Bool) (l1 : List Char) (a : Bool) (nm : List Char)
    (h : matchFromFunction isAsync l1 = some (a, nm)) :
    a = isAsync ∧ ∃ w1 w2 ps w3 rest,
      l1 = String.toList "function" ++
        (w1 ++ (nm ++ (w2 ++ ('(' :: (ps ++ (')' :: (w3 ++ ('\x7b' :: rest)))))))) ∧
      (∀ c ∈ w1, isWs c = true) ∧ w1 ≠ [] ∧
      (∃ c cs, nm = c :: cs ∧ isIdentStart c = true ∧ ∀ d ∈ cs, isIdentChar d = true) ∧
      (∀ c ∈ w2, isWs c = true) ∧ ')' ∉ ps ∧ (∀ c ∈ w3, isWs c = true) := by
  unfold matchFromFunction at h
  split at h
  · cases h
  · rename_i l2 he2
    split at h
    · cases h
    · rename_i l3 he3
      split at h
      · cases h
      · rename_i funcName l4 he4
        split at h
        · rename_i l6 he5
          split at h
          · cases h
          · rename_i l7 he6
            split at h
            · rename_i tail he7
              injection h with h1
              injection h1 with ha hnm
              subst ha
              subst hnm
              obtain ⟨hl3, hident⟩ := takeIdent_sound l3 funcName l4 he4
              obtain ⟨w1, hw1eq, hw1ne, hw1ws⟩ := dropWs1_sound l2 l3 he3
              obtain ⟨w2, hw2eq, hw2ws⟩ := dropWs_spec l4
              obtain ⟨ps, hpseq, hpsmem⟩ := skipParams_sound l6 l7 he6
              obtain ⟨w3, hw3eq, hw3ws⟩ := dropWs_spec l7
              rw [he5] at hw2eq
              rw [he7] at hw3eq
              refine ⟨rfl, w1, w2, ps, w3, tail, ?_, hw1ws, hw1ne, hident, hw2ws,
                hpsmem, hw3ws⟩
              rw [expectStr_sound _ _ _ he2, hw1eq, hl3, hw2eq, hpseq, hw3eq]
            · cases h
        · cases h

theorem re_match_function_sound (line : List Char) (a : Bool) (nm : List Char)
    (h : re_match_function line = some (a, nm)) :
    ∃ w0 apart w1 w2 ps w3 rest,
      line = w0 ++ (apart ++ (String.toList "function" ++
        (w1 ++ (nm ++ (w2 ++ ('(' :: (ps ++ (')' :: (w3 ++ ('\x7b' :: rest)))))))))) ∧
      (∀ c ∈ w0, isWs c = true) ∧
      ((a = false ∧ apart = []) ∨ (a = true ∧ ∃ wa, (∀ c ∈ wa, isWs c = true) ∧ wa ≠ [] ∧
        apart = String.toList "async" ++ wa)) ∧
      (∀ c ∈ w1, isWs c = true) ∧ w1 ≠ [] ∧
      (∃ c cs, nm = c :: cs ∧ isIdentStart c = true ∧ ∀ d ∈ cs, isIdentChar d = true) ∧
      (∀ c ∈ w2, isWs c = true) ∧ ')' ∉ ps ∧ (∀ c ∈ w3, isWs c = true) := by
  unfold re_match_function at h
  obtain ⟨w0, hw0eq, hw0ws⟩ := dropWs_spec line
  rcases hst : matchAsyncStep (dropWs line) with ⟨b, l1⟩
  rw [hst] at h
  simp only at h
  obtain ⟨hab, w1, w2, ps, w3, rest, hl1, hw1ws, hw1ne, hident, hw2ws, hpsmem, hw3ws⟩ :=
    matchFromFunction_sound b l1 a nm h
  subst hab
  rcases matchAsyncStep_sound (dropWs line) a l1 hst with ⟨hb, rfl⟩ | ⟨hb, wa, hwaws, hwane, hdeq⟩
  · refine ⟨w0, [], w1, w2, ps, w3, rest, ?_, hw0ws, Or.inl ⟨hb, rfl⟩, hw1ws, hw1ne,
      hident, hw2ws, hpsmem, hw3ws⟩
    rw [hw0eq, hl1, List.nil_append]
  · refine ⟨w0, String.toList "async" ++ wa, w1, w2, ps, w3, rest, ?_, hw0ws,
      Or.inr ⟨hb, wa, hwaws, hwane, rfl⟩, hw1ws, hw1ne, hident, hw2ws, hpsmem, hw3ws⟩
    rw [hw0eq, hdeq, hl1, List.append_assoc]

theorem getBucket_appendToCat (cats : Categories) (c0 c : Cat) (f : FunctionRecord) :
    getBucket (appendToCat cats c0 f) c =
      if c0 = c then getBucket cats c ++ [f] else getBucket cats c := by
  cases c0 <;> cases c <;> simp [appendToCat, getBucket]

theorem getBucket_foldl (funcs : List FunctionRecord) (cats : Categories) (c : Cat) :
    getBucket (funcs.foldl (fun cs f => appendToCat cs (classify f.name) f) cats) c =
      getBucket cats c ++ funcs.filter (fun f => decide (classify f.name = c)) := by
  induction funcs generalizing cats with
  | nil => simp
  | cons f fs ih =>
    rw [List.foldl_cons, ih]
    by_cases hc : classify f.name = c
    · simp [List.filter_cons, hc, getBucket_appendToCat]
    · simp [List.filter_cons, hc, getBucket_appendToCat]

theorem getBucket_categorizeAll (funcs : List FunctionRecord) (c : Cat) :
    getBucket (categorizeAll funcs) c =
      funcs.filter (fun f => decide (classify f.name = c)) := by
  rw [categorizeAll, getBucket_foldl]
  cases c <;> simp [emptyCategories, getBucket]

theorem count_filter_decide (l : List FunctionRecord) (p : FunctionRecord → Bool)
    (a : FunctionRecord) :
    (l.filter p).count a = if p a then l.count a else 0 := by
  induction l with
  | nil => simp
  | cons b t ih =>
    by_cases hb : p b
    · by_cases hba : b = a
      · subst hba
        simp [List.filter_cons, hb, List.count_cons, ih]
      · rw [List.filter_cons, if_pos hb, List.count_cons, List.count_cons, ih]
        simp [hba]
    · by_cases hba : b = a
      · subst hba
        rw [List.filter_cons, if_neg hb, List.count_cons, ih]
        simp [hb]
      · rw [List.filter_cons, if_neg hb, List.count_cons, ih]
        simp [hba]

theorem extractLoop_mem_of_match (lines : List (List Char)) (k i : Nat)
    (h : i < lines.length) (a : Bool) (nm : List Char)
    (hm : re_match_function (lines.get ⟨i, h⟩) = some (a, nm)) :
    (⟨nm, k + i, a, pyStrip (lines.get ⟨i, h⟩)⟩ : FunctionRecord) ∈ extractLoop lines k := by
  induction lines generalizing k i with
  | nil => exact absurd h (by simp)
  | cons line rest ih =>
    cases i with
    | zero =>
      simp only [List.get] at hm
      simp only [extractLoop, hm, Nat.add_zero]
      exact List.mem_cons_self _ _
    | succ j =>
      have hj : j < rest.length := Nat.lt_of_succ_lt_succ h
      have hrec := ih (k + 1) j hj (by simpa using hm)
      have harith : k + (j + 1) = (k + 1) + j := by omega
      rw [harith]
      cases hml : re_match_function line with
      | some pr =>
        obtain ⟨a0, nm0⟩ := pr
        simp only [extractLoop, hml]
        exact List.mem_cons_of_mem _ hrec
      | none =>
        simp only [extractLoop, hml]
        exact hrec

theorem extractLoop_line_lower (lines : List (List Char)) (k : Nat) (r : FunctionRecord)
    (hr : r ∈ extractLoop lines k) : k ≤ r.line := by
  induction lines generalizing k with
  | nil => simp [extractLoop] at hr
  | cons line rest ih =>
    cases hml : re_match_function line with
    | some pr =>
      obtain ⟨a0, nm0⟩ := pr
      rw [extractLoop, hml] at hr
      rcases List.mem_cons.mp hr with rfl | hr
      · exact Nat.le_refl _
      · exact Nat.le_of_succ_le (ih (k + 1) hr)
    | none =>
      rw [extractLoop, hml] at hr
      exact Nat.le_of_succ_le (ih (k + 1) hr)

theorem extractLoop_pairwise (lines : List (List Char)) (k : Nat) :
    (extractLoop lines k).Pairwise (fun f g => f.line < g.line) := by
  induction lines generalizing k with
  | nil => exact List.Pairwise.nil
  | cons line rest ih =>
    cases hml : re_match_function line with
    | some pr =>
      obtain ⟨a0, nm0⟩ := pr
      rw [extractLoop, hml]
      refine List.Pairwise.cons ?_ (ih (k + 1))
      intro g hg
      exact Nat.lt_of_succ_le (extractLoop_line_lower rest (k + 1) g hg)
    | none =>
      rw [extractLoop, hml]
      exact ih (k + 1)

theorem splitLines_no_newline (a : List Char) (ha : '\n' ∉ a) :
    splitLines a = [a] := by
  induction a with
  | nil => rfl
  | cons c t ih =>
    have hc : c ≠ '\n' := fun hc => ha (by simp [hc])
    have ht : '\n' ∉ t := fun hm => ha (List.mem_cons_of_mem c hm)
    rw [splitLines, if_neg hc, ih ht]

theorem splitLines_append_newline (a r : List Char) (ha : '\n' ∉ a) :
    splitLines (a ++ '\n' :: r) = a :: splitLines r := by
  induction a with
  | nil => simp [splitLines]
  | cons c t ih =>
    have hc : c ≠ '\n' := fun hc => ha (by simp [hc])
    have ht : '\n' ∉ t := fun hm => ha (List.mem_cons_of_mem c hm)
    rw [List.cons_append, splitLines, if_neg hc, ih ht]

theorem reportSections_flatMap (cats : Categories) (cl : List Cat) :
    reportSections cats cl = cl.flatMap (fun c =>
      if getBucket cats c = [] then []
      else ("\n" ++ pyUpper (catLabel c) ++ " (" ++ toString (getBucket cats c).length
            ++ " functions):") :: (getBucket cats c).map funcReportLine) := by
  induction cl with
  | nil => rfl
  | cons c r ih =>
    rw [reportSections, List.flatMap_cons, ih]
    congr 1
    by_cases hb : getBucket cats c = []
    · simp [hb]
    · simp [hb, List.isEmpty_iff]

/-- C1: for every input text, every FunctionRecord produced by the Extractor is
placed in exactly one of the ten CategoryBuckets: every record lands in the
bucket its classification selects (totality, with `core` as the fallback value
of `classify`), a record found in a bucket is classified to exactly that label
(disjointness), and counting with multiplicity, each record occurs in its own
bucket exactly as often as in the extracted sequence and never in any other
bucket (the union of the buckets is the extracted sequence, no duplicates, no
omissions). -/
theorem c1_partition (content : List Char) :
    (∀ f ∈ (analyze_file content).2,
      f ∈ getBucket (analyze_file content).1 (classify f.name)) ∧
    (∀ c : Cat, ∀ f ∈ getBucket (analyze_file content).1 c, classify f.name = c) ∧
    (∀ f : FunctionRecord,
      (getBucket (analyze_file content).1 (classify f.name)).count f
        = (analyze_file content).2.count f) ∧
    (∀ c : Cat, ∀ f : FunctionRecord, classify f.name ≠ c →
      (getBucket (analyze_file content).1 c).count f = 0) := by
  have hana : analyze_file content =
      (categorizeAll (extractLoop (splitLines content) 1),
       extractLoop (splitLines content) 1) := rfl
  rw [hana]
  refine ⟨?_, ?_, ?_, ?_⟩
  · intro f hf
    rw [getBucket_categorizeAll]
    exact List.mem_filter.mpr ⟨hf, by simp⟩
  · intro c f hf
    rw [getBucket_categorizeAll] at hf
    simpa using (List.mem_filter.mp hf).2
  · intro f
    rw [getBucket_categorizeAll, count_filter_decide]
    simp
  · intro c f hne
    rw [getBucket_categorizeAll, count_filter_decide]
    simp [hne]

/-- Witness for C1: on the file `function formatDate(x) {`, the extracted
record is found in the bucket selected by its classification. -/
theorem c1_partition_witness :
    (⟨String.toList "formatDate", 1, false,
        String.toList "function formatDate(x) \x7b"⟩ : FunctionRecord) ∈
      getBucket (analyze_file (String.toList "function formatDate(x) \x7b")).1
        (classify (String.toList "formatDate")) := by
  have h := (c1_partition (String.toList "function formatDate(x) \x7b")).1
  exact h _ (by decide)

/-- C2 counterexample: the line `function f(a() {` decomposes as
`function f` ++ `(` ++ `a(` ++ `)` ++ ` {`, its parameter text `a(` contains a
nested `(`, and yet the Extractor's pattern matches the line: the claim that a
nested parenthesis of either kind prevents matching is false, because the
character class of the parameter list excludes only `)`. -/
theorem c2_counterexample :
    String.toList "function f(a() \x7b" =
      String.toList "function f" ++ '(' :: (String.toList "a(" ++ ')' ::
        String.toList " \x7b") ∧
    '(' ∈ String.toList "a(" ∧
    (re_match_function (String.toList "function f(a() \x7b")).isSome = true :=
  ⟨by decide, by decide, by decide⟩

/-- C2 amended: in every matched line, the matched parameter list — the span
between the first `(` of the line and the first `)` after it — contains no
`)` character (the class `[^)]*` excludes only the close parenthesis), but it
may contain a nested `(`: every matched line splits as `pre ++ ( ++ inner ++
) ++ post` with no parenthesis of either kind in `pre` and no `)` in
`inner`. -/
theorem c2_amended (line : List Char) (a : Bool) (nm : List Char)
    (h : re_match_function line = some (a, nm)) :
    ∃ pre inner post, line = pre ++ '(' :: (inner ++ ')' :: post) ∧
      (∀ c ∈ pre, c ≠ '(' ∧ c ≠ ')') ∧ ')' ∉ inner := by
  obtain ⟨w0, apart, w1, w2, ps, w3, rest, heq, hw0, hap, hw1, hw1ne, hident, hw2, hps, hw3⟩ :=
    re_match_function_sound line a nm h
  refine ⟨w0 ++ (apart ++ (String.toList "function" ++ (w1 ++ (nm ++ w2)))), ps,
    w3 ++ ('\x7b' :: rest), ?_, ?_, hps⟩
  · rw [heq]
    simp [List.append_assoc]
  · have hasync : ∀ c ∈ String.toList "async", c ≠ '(' ∧ c ≠ ')' := by decide
    have hfn : ∀ c ∈ String.toList "function", c ≠ '(' ∧ c ≠ ')' := by decide
    intro c hc
    rcases List.mem_append.mp hc with hc | hc
    · exact ne_paren_of_ws c (hw0 c hc)
    rcases List.mem_append.mp hc with hc | hc
    · rcases hap with ⟨_, rfl⟩ | ⟨_, wa, hwaws, _, rfl⟩
      · simp at hc
      · rcases List.mem_append.mp hc with hc | hc
        · exact hasync c hc
        · exact ne_paren_of_ws c (hwaws c hc)
    rcases List.mem_append.mp hc with hc | hc
    · exact hfn c hc
    rcases List.mem_append.mp hc with hc | hc
    · exact ne_paren_of_ws c (hw1 c hc)
    rcases List.mem_append.mp hc with hc | hc
    · obtain ⟨c0, cs, rfl, hst, hcs⟩ := hident
      rcases List.mem_cons.mp hc with rfl | hc
      · exact ne_paren_of_identChar c (identChar_of_identStart c hst)
      · exact ne_paren_of_identChar c (hcs c hc)
    · exact ne_paren_of_ws c (hw2 c hc)

/-- Witness for C2 amended: the decomposition exists for the very line of the
counterexample, `function f(a() {`. -/
theorem c2_amended_witness :
    ∃ pre inner post, String.toList "function f(a() \x7b" =
      pre ++ '(' :: (inner ++ ')' :: post) ∧
      (∀ c ∈ pre, c ≠ '(' ∧ c ≠ ')') ∧ ')' ∉ inner :=
  c2_amended (String.toList "function f(a() \x7b") false (String.toList "f") (by decide)

/-- C3: the Classifier lowercases the name and evaluates the ten
keyword-containment rules in the spec's exact priority order with the spec's
exact keyword sets, returning the label of the first matching rule (first
match wins, `core` as fallback); in particular `bulkFormatList`, containing
both `format` and `bulk`, is classified `formatters`, never `bulk_actions`. -/
theorem c3_classifier_order :
    (∀ nm : List Char, classify nm = specClassify nm) ∧
    classify (String.toList "bulkFormatList") = Cat.formatters := by
  constructor
  · intro nm
    simp only [classify, specClassify, firstMatchCat, specRules, List.any_cons, List.any_nil,
      Bool.or_false]
  · decide

/-- C4: for a file whose third line is `async function fetchPlaylist() {`
(any two newline-free lines before it), the Extractor produces the record
named `fetchPlaylist`, line 3, asynchronous flag set, and the Classifier puts
it in the `playlists` bucket — not in the `api` bucket, although the name
also contains `fetch` — because the playlists rule is evaluated first. -/
theorem c4_scenario_b (l1 l2 : List Char) (h1 : '\n' ∉ l1) (h2 : '\n' ∉ l2) :
    (⟨String.toList "fetchPlaylist", 3, true,
        String.toList "async function fetchPlaylist() \x7b"⟩ : FunctionRecord) ∈
      (analyze_file (l1 ++ '\n' :: (l2 ++ '\n' ::
        String.toList "async function fetchPlaylist() \x7b"))).2 ∧
    (⟨String.toList "fetchPlaylist", 3, true,
        String.toList "async function fetchPlaylist() \x7b"⟩ : FunctionRecord) ∈
      (analyze_file (l1 ++ '\n' :: (l2 ++ '\n' ::
        String.toList "async function fetchPlaylist() \x7b"))).1.playlists ∧
    (⟨String.toList "fetchPlaylist", 3, true,
        String.toList "async function fetchPlaylist() \x7b"⟩ : FunctionRecord) ∉
      (analyze_file (l1 ++ '\n' :: (l2 ++ '\n' ::
        String.toList "async function fetchPlaylist() \x7b"))).1.api := by
  have hsplit : splitLines (l1 ++ '\n' :: (l2 ++ '\n' ::
      String.toList "async function fetchPlaylist() \x7b")) =
      [l1, l2, String.toList "async function fetchPlaylist() \x7b"] := by
    rw [splitLines_append_newline l1 _ h1, splitLines_append_newline l2 _ h2,
      splitLines_no_newline _ (by decide)]
  have hana : (analyze_file (l1 ++ '\n' :: (l2 ++ '\n' ::
      String.toList "async function fetchPlaylist() \x7b"))) =
      (categorizeAll (extractLoop
        [l1, l2, String.toList "async function fetchPlaylist() \x7b"] 1),
       extractLoop [l1, l2, String.toList "async function fetchPlaylist() \x7b"] 1) := by
    rw [analyze_file, hsplit]
  have hmem : (⟨String.toList "fetchPlaylist", 3, true,
      String.toList "async function fetchPlaylist() \x7b"⟩ : FunctionRecord) ∈
      extractLoop [l1, l2, String.toList "async function fetchPlaylist() \x7b"] 1 := by
    have hlen : 2 < ([l1, l2, String.toList "async function fetchPlaylist() \x7b"]).length := by
      simp
    have hget : ([l1, l2, String.toList "async function fetchPlaylist() \x7b"]).get ⟨2, hlen⟩
        = String.toList "async function fetchPlaylist() \x7b" := rfl
    have hm : re_match_function
        (([l1, l2, String.toList "async function fetchPlaylist() \x7b"]).get ⟨2, hlen⟩)
        = some (true, String.toList "fetchPlaylist") := by
      rw [hget]
      decide
    have h := extractLoop_mem_of_match
      [l1, l2, String.toList "async function fetchPlaylist() \x7b"] 1 2 hlen
      true (String.toList "fetchPlaylist") hm
    rw [hget] at h
    have hrec : (⟨String.toList "fetchPlaylist", 1 + 2, true,
        pyStrip (String.toList "async function fetchPlaylist() \x7b")⟩ : FunctionRecord) =
        ⟨String.toList "fetchPlaylist", 3, true,
        String.toList "async function fetchPlaylist() \x7b"⟩ := by decide
    rwa [hrec] at h
  rw [hana]
  refine ⟨hmem, ?_, ?_⟩
  · show _ ∈ getBucket (categorizeAll _) Cat.playlists
    rw [getBucket_categorizeAll]
    exact List.mem_filter.mpr ⟨hmem, by decide⟩
  · show _ ∉ getBucket (categorizeAll _) Cat.api
    intro hin
    rw [getBucket_categorizeAll] at hin
    have := (List.mem_filter.mp hin).2
    exact absurd this (by decide)

/-- Witness for C4 at concrete first and second lines. -/
theorem c4_scenario_b_witness :
    (⟨String.toList "fetchPlaylist", 3, true,
        String.toList "async function fetchPlaylist() \x7b"⟩ : FunctionRecord) ∈
      (analyze_file (String.toList "// a" ++ '\n' :: (String.toList "// b" ++ '\n' ::
        String.toList "async function fetchPlaylist() \x7b"))).2 :=
  (c4_scenario_b (String.toList "// a") (String.toList "// b")
    (by decide) (by decide)).1

/-- C5: for every input text, every line of it that is a valid single-line
declaration — optional leading whitespace, optional asynchronous marker
(`async` plus whitespace), the `function` keyword, whitespace, an identifier,
optional whitespace, a parenthesized parameter list free of close
parentheses, optional whitespace, an opening brace — yields a record whose
name is exactly the identifier, whose line number is the line's 1-based
position, and whose asynchronous flag is set exactly when the marker is
present; and the produced sequence is in file order (strictly ascending line
numbers). -/
theorem c5_extractor (content : List Char) (i : Nat) (h : i < (splitLines content).length)
    (w0 apart w1 nm w2 ps w3 : List Char) (isAsync : Bool)
    (hline : (splitLines content).get ⟨i, h⟩ = w0 ++ apart ++ String.toList "function" ++
      w1 ++ nm ++ w2 ++ '(' :: ps ++ ')' :: w3 ++ ['\x7b'])
    (hw0 : ∀ c ∈ w0, isWs c = true)
    (hap : (isAsync = false ∧ apart = []) ∨
           (isAsync = true ∧ ∃ wa, (∀ c ∈ wa, isWs c = true) ∧ wa ≠ [] ∧
             apart = String.toList "async" ++ wa))
    (hw1 : ∀ c ∈ w1, isWs c = true) (hw1ne : w1 ≠ [])
    (hnm : ∃ c cs, nm = c :: cs ∧ isIdentStart c = true ∧ ∀ d ∈ cs, isIdentChar d = true)
    (hw2 : ∀ c ∈ w2, isWs c = true) (hps : ')' ∉ ps) (hw3 : ∀ c ∈ w3, isWs c = true) :
    (⟨nm, i + 1, isAsync, pyStrip ((splitLines content).get ⟨i, h⟩)⟩ : FunctionRecord) ∈
      (analyze_file content).2 ∧
    (analyze_file content).2.Pairwise (fun f g => f.line < g.line) := by
  have hm : re_match_function ((splitLines content).get ⟨i, h⟩) = some (isAsync, nm) := by
    rw [hline]
    exact re_match_function_complete w0 apart w1 nm w2 ps w3 [] isAsync
      hw0 hap hw1 hw1ne hnm hw2 hps hw3
  constructor
  · have hmem := extractLoop_mem_of_match (splitLines content) 1 i h isAsync nm hm
    have harith : 1 + i = i + 1 := Nat.add_comm 1 i
    rw [harith] at hmem
    exact hmem
  · exact extractLoop_pairwise (splitLines content) 1

/-- Witness for C5: the single-line file `async function foo(a, b) {`. -/
theorem c5_extractor_witness :
    (⟨String.toList "foo", 0 + 1, true,
        pyStrip ((splitLines (String.toList "async function foo(a, b) \x7b")).get
          ⟨0, by decide⟩)⟩ : FunctionRecord) ∈
      (analyze_file (String.toList "async function foo(a, b) \x7b")).2 ∧
    (analyze_file (String.toList "async function foo(a, b) \x7b")).2.Pairwise
      (fun f g => f.line < g.line) :=
  c5_extractor (String.toList "async function foo(a, b) \x7b") 0 (by decide)
    [] (String.toList "async ") [ ' '] (String.toList "foo") [] (String.toList "a, b")
    [ ' '] true (by decide) (by decide)
    (Or.inr ⟨rfl, [ ' '], by decide, by decide, by decide⟩)
    (by decide) (by decide)
    ⟨'f', String.toList "oo", by decide, by decide, by decide⟩
    (by decide) (by decide) (by decide)

/-- C6: the Reporter's output is a banner, a total-count line equal to the
number of extracted records, then, iterating the ten buckets in the fixed
declaration order, for each non-empty bucket an uppercased category header
with the bucket's count followed by one line per record (asynchronous marker
when set, name, 1-based line number), with every empty bucket omitted
entirely — stated as equality with the spec-modelled reporter; and an empty
input file yields exactly the banner and `Total functions found: 0` with no
category sections. -/
theorem c6_reporter (cats : Categories) (funcs : List FunctionRecord) :
    print_analysis cats funcs = reporterSpec cats funcs.length ∧
    print_analysis (analyze_file []).1 (analyze_file []).2 =
      [String.mk (List.replicate 80 '='), "FUNCTION ANALYSIS",
       String.mk (List.replicate 80 '='), "\nTotal functions found: 0\n"] := by
  constructor
  · rw [print_analysis, reporterSpec, reportSections_flatMap]
  · rfl

/-- C7: when the chosen file cannot be opened or decoded as text the run
fails with an error description and nonzero exit status, producing no report
output at all; otherwise it exits zero with the full report printed. -/
theorem c7_error_handling (argv : List String) (fs : FileSystem) :
    (fs (chosenPath argv) = none →
      runMain argv fs = Except.error ("cannot open or decode file: " ++ chosenPath argv) ∧
      exitStatus (runMain argv fs) ≠ 0) ∧
    (∀ content, fs (chosenPath argv) = some content →
      runMain argv fs = Except.ok (print_analysis (analyze_file content).1
        (analyze_file content).2) ∧
      exitStatus (runMain argv fs) = 0) := by
  constructor
  · intro h
    have he : runMain argv fs =
        Except.error ("cannot open or decode file: " ++ chosenPath argv) := by
      unfold runMain runWithPath
      rw [h]
    exact ⟨he, by rw [he]; simp [exitStatus]⟩
  · intro content h
    have he : runMain argv fs = Except.ok (print_analysis (analyze_file content).1
        (analyze_file content).2) := by
      unfold runMain runWithPath
      rw [h]
    exact ⟨he, by rw [he]; rfl⟩

/-- Witness for C7: a file system with no readable files fails the run on
the default path with a nonzero status. -/
theorem c7_error_handling_witness :
    runMain ["prog"] (fun _ => none) =
      Except.error ("cannot open or decode file: " ++ chosenPath ["prog"]) ∧
    exitStatus (runMain ["prog"] (fun _ => none)) ≠ 0 :=
  (c7_error_handling ["prog"] (fun _ => none)).1 rfl

/-- C8: with no positional argument the analyzed path is literally
`config.js`; with one positional argument that argument is the path. -/
theorem c8_default_path :
    (∀ prog : String, chosenPath [prog] = "config.js") ∧
    (∀ prog p : String, chosenPath [prog, p] = p) ∧
    (∀ prog : String, ∀ fs : FileSystem, runMain [prog] fs = runWithPath "config.js" fs) ∧
    (∀ prog p : String, ∀ fs : FileSystem, runMain [prog, p] fs = runWithPath p fs) :=
  ⟨fun _ => rfl, fun _ _ => rfl, fun _ _ => rfl, fun _ _ _ => rfl⟩

/-- C9: matching is prefix-based — appending any text after a matched line
(for example a complete one-line body after the opening brace) still matches
with the same captures, and the record stores the entire line, whitespace
stripped, as its raw text, not just the matched prefix. -/
theorem c9_prefix_matching (l s : List Char) (a : Bool) (nm : List Char)
    (h : re_match_function l = some (a, nm)) :
    re_match_function (l ++ s) = some (a, nm) ∧
    (∀ (rest : List (List Char)) (k : Nat),
      extractLoop ((l ++ s) :: rest) k =
        ⟨nm, k, a, pyStrip (l ++ s)⟩ :: extractLoop rest (k + 1)) := by
  obtain ⟨w0, apart, w1, w2, ps, w3, rest0, heq, hw0, hap, hw1, hw1ne, hident, hw2, hps, hw3⟩ :=
    re_match_function_sound l a nm h
  have hm : re_match_function (l ++ s) = some (a, nm) := by
    rw [heq]
    have hc := re_match_function_complete w0 apart w1 nm w2 ps w3 (rest0 ++ s) a
      hw0 hap hw1 hw1ne hident hw2 hps hw3
    simp only [List.append_assoc, List.cons_append] at hc ⊢
    exact hc
  refine ⟨hm, ?_⟩
  intro rest k
  simp only [extractLoop, hm]

/-- Witness for C9: the line `function f() {` extended with a one-line body
` return 1; }` still matches, and the record stores the whole stripped line. -/
theorem c9_prefix_matching_witness :
    re_match_function (String.toList "function f() \x7b" ++ String.toList " return 1; \x7d")
      = some (false, String.toList "f") ∧
    extractLoop [String.toList "function f() \x7b" ++ String.toList " return 1; \x7d"] 1 =
      [⟨String.toList "f", 1, false,
        pyStrip (String.toList "function f() \x7b" ++ String.toList " return 1; \x7d")⟩] := by
  have h := c9_prefix_matching (String.toList "function f() \x7b")
    (String.toList " return 1; \x7d") false (String.toList "f") (by decide)
  exact ⟨h.1, by rw [h.2 [] 1]; rfl⟩

/-- C10: extra command-line arguments are silently ignored — the run with
any additional arguments after the first positional one equals the run with
only the first positional argument. -/
theorem c10_extra_args (prog p : String) (rest : List String) (fs : FileSystem) :
    runMain (prog :: p :: rest) fs = runMain [prog, p] fs := by
  have h1 : chosenPath (prog :: p :: rest) = p := by
    have hlt : 1 < (prog :: p :: rest).length := by
      simp only [List.length_cons]
      omega
    unfold chosenPath
    rw [dif_pos hlt]
    rfl
  have h2 : chosenPath [prog, p] = p := rfl
  rw [runMain, runMain, h1, h2]
